import Mathlib

/-!
Shallow embedding, in Lean 4, of the text-fragment-to-question core of the
Jee-Question-Generator repository:

* `src/src/components/text_normalizer.py` (the string normalizer),
* `src/src/components/simple_text_question_parser.py`
  (`MarkerBasedQuestionParser`),
* `src/answer_key_extractor.py` (`AnswerKeyExtractor`).

Strings are modelled as `List Char` (`Str`).  Each Python `re.sub` /
`finditer` call is compiled by hand into an executable scanner over the
character list: the scanner walks the string left to right, attempts the
(deterministic, as argued in the comments) pattern match at each position,
emits the replacement and resumes after the matched text — exactly the
non-overlapping leftmost semantics of `re.sub`.  Scanners that jump over
matched text recurse on non-structural suffixes, so they take an explicit
fuel argument; `length + 1` fuel is always sufficient because every match
consumes at least one character (each matcher's smallest match is given in
its comment).

Python's `\s`, `\d`, `\w` classes are restricted here to the character sets
these inputs can contain: ASCII whitespace for `\s`, ASCII digits for `\d`,
ASCII alphanumerics plus underscore and the Greek letters this module's own
replacement tables can produce for `\w`.
-/

namespace JeeQG

abbrev Str := List Char

/-- ASCII fragment of Python's `\s` / `str.strip` whitespace. -/
def pySpace (c : Char) : Bool :=
  c = ' ' || c = '\t' || c = '\n' || c = '\r' || c = '\x0b' || c = '\x0c'

/-- ASCII fragment of Python's `\d`. -/
def pyDigit (c : Char) : Bool :=
  '0' ≤ c && c ≤ '9'

/-- `[A-Za-z]`. -/
def pyLetter (c : Char) : Bool :=
  ('a' ≤ c && c ≤ 'z') || ('A' ≤ c && c ≤ 'Z')

/-- Fragment of Python's `\w` (word character, used for `\b`): ASCII
alphanumerics, underscore, and the non-ASCII letters the normalizer's own
tables can produce (`θ`, `π`, `Ω`). -/
def pyWord (c : Char) : Bool :=
  pyDigit c || pyLetter c || c = '_' || c = 'θ' || c = 'π' || c = 'Ω'

/-- Python `str.strip()`. -/
def strip (s : Str) : Str :=
  ((s.dropWhile pySpace).reverse.dropWhile pySpace).reverse

/-- Python `" ".join parts`. -/
def joinSp (parts : List Str) : Str :=
  List.intercalate [' '] parts

/-- Python `int` on a digit string. -/
def digitsVal (ds : Str) : Nat :=
  ds.foldl (fun n c => 10 * n + (c.toNat - '0'.toNat)) 0

/-- Length of the run of whitespace at the head (`\s*`). -/
def spRun (s : Str) : Nat :=
  (s.takeWhile pySpace).length

/-- The run of digits at the head (`\d*`; matchers demand nonemptiness for
`\d+`). -/
def digRun (s : Str) : Str :=
  s.takeWhile pyDigit

/--
Generic engine for `re.sub`: scan left to right; at each position hand the
matcher `tryAt` the previous character of the *original* string (for `\b`)
and the remaining text; on `some (n, rep)` the match consumed `n` characters
(never the lookahead part), `rep` is substituted and scanning resumes after
the consumed text; on `none` the scan advances one character.  Fuel
`s.length + 1` is sufficient whenever `tryAt` only returns `n ≥ 1`.
-/
def scanSubF (tryAt : Option Char → Str → Option (Nat × Str)) :
    Nat → Option Char → Str → Str
  | 0, _, s => s
  | f + 1, prev, s =>
    match s with
    | [] => []
    | c :: cs =>
      match tryAt prev (c :: cs) with
      | some (n, rep) =>
        rep ++ scanSubF tryAt f ((List.take n (c :: cs)).getLast?)
          (List.drop n (c :: cs))
      | none => c :: scanSubF tryAt f (some c) cs

/-- `\b` at the current position, looking back at the previous original
character: the next character of every pattern guarded this way is a word
character, so the boundary holds iff the previous character is absent or is
not a word character. -/
def bdry (prev : Option Char) : Bool :=
  match prev with
  | none => true
  | some c => !(pyWord c)

/-- Does a word character follow?  (`\b` after a word character: the match
requires `noWordAhead`.) -/
def noWordAhead : Str → Bool
  | [] => true
  | c :: _ => !(pyWord c)

/-- Ordered regex alternation with full-continuation backtracking: try each
alternative in order as a literal prefix and run the continuation `k` on the
remainder; the first alternative whose continuation succeeds wins (this is
how `(sin|cos|...|cosec)` retries `cosec` after `cos` fails its
continuation). -/
def altScan {β : Type} (k : Str → Str → Option β) : List Str → Str → Option β
  | [], _ => none
  | a :: rest, s =>
    if List.take a.length s = a then
      match k a (List.drop a.length s) with
      | some b => some b
      | none => altScan k rest s
    else altScan k rest s

/-- `(?:\.\d+)` at the head: a dot followed by at least one digit; returns
the matched text and the remainder. -/
def fracTail (s : Str) : Option (Str × Str) :=
  match s with
  | '.' :: t =>
    let ds := digRun t
    if ds = [] then none else some ('.' :: ds, t.drop ds.length)
  | _ => none

/-!
### `text_normalizer.py`

One matcher per compiled pattern, in source order.  Every matcher consumes
at least 2 characters, so fuel `length + 1` never runs out.
-/

/-- `_UNICODE_REPLACEMENTS`: the source's ordered `str.replace` table
(math-italic letters and the Unicode minus). -/
def unicodeTable : List (Char × Char) :=
  [('−', '-'), ('𝑔', 'g'), ('𝑇', 'T'), ('𝑅', 'R'), ('𝜃', 'θ'),
   ('𝜋', 'π'), ('𝐿', 'L'), ('𝑀', 'M'), ('𝑡', 't')]

/-- `_normalize_unicode`: sequential single-character `str.replace`s. -/
def normalizeUnicode (s : Str) : Str :=
  unicodeTable.foldl (fun t p => t.map fun c => if c = p.1 then p.2 else c) s

/-- `_DECIMAL_PATTERN = (\d)\s*\.\s*(\d)`, replacement `\1.\2`.  Greedy
`\s*` runs are forced (no backtracking can help: a space can never stand
where `.` or a digit is required).  Minimum match length 3. -/
def tryDec (_ : Option Char) (s : Str) : Option (Nat × Str) :=
  match s with
  | d :: rest =>
    if pyDigit d then
      let k1 := spRun rest
      match rest.drop k1 with
      | '.' :: r2 =>
        let k2 := spRun r2
        match r2.drop k2 with
        | e :: _ =>
          if pyDigit e then some (1 + k1 + 1 + k2 + 1, [d, '.', e]) else none
        | [] => none
      | _ => none
    else none
  | [] => none

/-- One pass of `_DECIMAL_PATTERN.sub`. -/
def decSub (s : Str) : Str :=
  scanSubF tryDec (s.length + 1) none s

/-- The `while prev != cur` loop of `_normalize_decimals`, with explicit
iteration fuel (each productive iteration strictly shrinks the string, so
`length + 1` iterations always reach the fixed point). -/
def decLoopF : Nat → Str → Str
  | 0, s => s
  | f + 1, s =>
    let t := decSub s
    if t = s then s else decLoopF f t

/-- `_normalize_decimals`. -/
def normalizeDecimals (s : Str) : Str :=
  decLoopF (s.length + 1) s

/-- Unit token of `_UNIT_PATTERN`: `([A-Za-z](?:[A-Za-z])?)\b`, greedy with
the forced backtracking rule: two letters need a non-word successor; one
letter is only possible when its successor is non-word (a second letter
would have been taken greedily and a digit/underscore kills `\b`). -/
def unitTry (r : Str) : Option (Str × Str) :=
  match r with
  | [] => none
  | [a] => if pyLetter a then some ([a], []) else none
  | a :: b :: t =>
    if pyLetter a then
      if pyLetter b then
        if noWordAhead t then some ([a, b], t) else none
      else if pyWord b then none
      else some ([a], b :: t)
    else none

/-- `\s*` then the unit token; returns the unit, characters consumed
(spaces + unit) and the remainder. -/
def unitsAfterValue (rest : Str) : Option (Str × Nat × Str) :=
  let k := spRun rest
  match unitTry (rest.drop k) with
  | some (u, r') => some (u, k + u.length, r')
  | none => none

/-- `_UNIT_PATTERN = (\d(?:\.\d+)?)\s*([A-Za-z](?:[A-Za-z])?)\b`,
replacement `\1 \2`.  The optional fractional group is tried greedily and
given back if the continuation fails (as `re` does).  Minimum match
length 2. -/
def tryUnits (_ : Option Char) (s : Str) : Option (Nat × Str) :=
  match s with
  | d :: s1 =>
    if pyDigit d then
      match fracTail s1 with
      | some (f, r1) =>
        match unitsAfterValue r1 with
        | some (u, n2, _) => some (1 + f.length + n2, (d :: f) ++ ' ' :: u)
        | none =>
          match unitsAfterValue s1 with
          | some (u, n2, _) => some (1 + n2, [d, ' '] ++ u)
          | none => none
      | none =>
        match unitsAfterValue s1 with
        | some (u, n2, _) => some (1 + n2, [d, ' '] ++ u)
        | none => none
    else none
  | [] => none

/-- `_normalize_units`. -/
def normalizeUnits (s : Str) : Str :=
  scanSubF tryUnits (s.length + 1) none s

/-- `[1-9]`. -/
def pyDigit19 (c : Char) : Bool :=
  '1' ≤ c && c ≤ '9'

/-- The unit whitelist of `_FRACTION_BEFORE_UNIT_PATTERN`, in alternation
order. -/
def fractionUnits : List Str :=
  [['m'], ['R'], ['N'], ['J'], ['k', 'g'], ['L'], ['C'], ['V'], ['A'],
   ['T'], ['H'], ['F']]

/-- `_FRACTION_BEFORE_UNIT_PATTERN =
`\b([1-9])\s+([1-9])\s+(m|R|N|J|kg|L|C|V|A|T|H|F)\b`, replacement
`\1/\2 \3`.  Minimum match length 4. -/
def tryFBU (prev : Option Char) (s : Str) : Option (Nat × Str) :=
  if bdry prev then
    match s with
    | n :: rest =>
      if pyDigit19 n then
        let k1 := spRun rest
        if k1 = 0 then none
        else
          match rest.drop k1 with
          | d2 :: rest2 =>
            if pyDigit19 d2 then
              let k2 := spRun rest2
              if k2 = 0 then none
              else
                altScan
                  (fun u r' =>
                    if noWordAhead r' then
                      some (1 + k1 + 1 + k2 + u.length,
                        [n, '/', d2, ' '] ++ u)
                    else none)
                  fractionUnits (rest2.drop k2)
            else none
          | [] => none
      else none
    | [] => none
  else none

/-- `([1-9]\d?)\b` with its forced greedy rule: two digits need a non-word
successor; one digit is possible only when its successor is neither a digit
(else greediness took it) nor a word character (else `\b` fails). -/
def numTry12 (s : Str) : Option (Str × Str) :=
  match s with
  | [] => none
  | [a] => if pyDigit19 a then some ([a], []) else none
  | a :: b :: t =>
    if pyDigit19 a then
      if pyDigit b then
        if noWordAhead t then some ([a, b], t) else none
      else if pyWord b then none
      else some ([a], b :: t)
    else none

/-- The lookahead `(?=\s*$|\s*[,;:)])`. -/
def laOK (r : Str) : Bool :=
  match r.dropWhile pySpace with
  | [] => true
  | c :: _ => c = ',' || c = ';' || c = ':' || c = ')'

/-- `_STANDALONE_FRACTION_PATTERN =
`\b([1-9]\d?)\s+([1-9]\d?)\b(?=\s*$|\s*[,;:)])`, replacement `\1/\2`; the
lookahead is not consumed.  Minimum match length 3. -/
def trySF (prev : Option Char) (s : Str) : Option (Nat × Str) :=
  if bdry prev then
    match numTry12 s with
    | some (num, r1) =>
      let k1 := spRun r1
      if k1 = 0 then none
      else
        match numTry12 (r1.drop k1) with
        | some (den, r3) =>
          if laOK r3 then
            some (num.length + k1 + den.length, num ++ '/' :: den)
          else none
        | none => none
    | none => none
  else none

/-- `_normalize_simple_fractions`: the fraction-before-unit pass then the
standalone-fraction pass. -/
def normalizeSimpleFractions (s : Str) : Str :=
  let t := scanSubF tryFBU (s.length + 1) none s
  scanSubF trySF (t.length + 1) none t

/-- `[-−]`. -/
def minusChar (c : Char) : Bool :=
  c = '-' || c = '−'

/-- `_SCI_NOTATION_PATTERN =
`(\d+(?:\.\d+)?)\s*[x×]\s*10\s*(?:\^\s*)?(\d+)` (IGNORECASE), replacement
`\1 x 10^\2`.  A fractional group or caret group that cannot complete its
continuation can never be rescued by backtracking (a dot or caret would then
have to match `[x×]` or `\d`), so both are committed when present.  Minimum
match length 4. -/
def trySci (_ : Option Char) (s : Str) : Option (Nat × Str) :=
  let ds1 := digRun s
  if ds1 = [] then none
  else
    let r1 := s.drop ds1.length
    let mant := match fracTail r1 with
      | some (f, _) => ds1 ++ f
      | none => ds1
    let r2 := match fracTail r1 with
      | some (_, rf) => rf
      | none => r1
    let k1 := spRun r2
    match r2.drop k1 with
    | x :: r4 =>
      if x = 'x' || x = 'X' || x = '×' then
        let k2 := spRun r4
        match r4.drop k2 with
        | '1' :: '0' :: r6 =>
          let k3 := spRun r6
          let r7 := r6.drop k3
          let k4 := match r7 with
            | '^' :: t => 1 + spRun t
            | _ => 0
          let r8 := r7.drop k4
          let ds2 := digRun r8
          if ds2 = [] then none
          else
            some (mant.length + k1 + 1 + k2 + 2 + k3 + k4 + ds2.length,
              mant ++ [' ', 'x', ' ', '1', '0', '^'] ++ ds2)
        | _ => none
      else none
    | [] => none

/-- `_TEN_EXP_PATTERN = 10\s*([-−])\s*(\d+)`, replacement `10^-\2`.
Minimum match length 4. -/
def tryTen (_ : Option Char) (s : Str) : Option (Nat × Str) :=
  match s with
  | '1' :: '0' :: r1 =>
    let k1 := spRun r1
    match r1.drop k1 with
    | mc :: r3 =>
      if minusChar mc then
        let k2 := spRun r3
        let ds := digRun (r3.drop k2)
        if ds = [] then none
        else some (2 + k1 + 1 + k2 + ds.length, ['1', '0', '^', '-'] ++ ds)
      else none
    | [] => none
  | _ => none

/-- The alternation of `_UNIT_EXP_PATTERN`, in source order. -/
def unitExpAlts : List Str :=
  [['m'], ['s'], ['k', 'g'], ['N'], ['J'], ['W'], ['H', 'z'], ['P', 'a'],
   ['C'], ['V'], ['F'], ['Ω'], ['o', 'h', 'm']]

/-- `_UNIT_EXP_PATTERN = (m|s|kg|...|Ω|ohm)\s+([-−])\s*(\d+)`, replacement
`\1^-\3`.  Minimum match length 4. -/
def tryUE (_ : Option Char) (s : Str) : Option (Nat × Str) :=
  altScan
    (fun u r =>
      let k1 := spRun r
      if k1 = 0 then none
      else
        match r.drop k1 with
        | mc :: r2 =>
          if minusChar mc then
            let k2 := spRun r2
            let ds := digRun (r2.drop k2)
            if ds = [] then none
            else some (u.length + k1 + 1 + k2 + ds.length,
              u ++ '^' :: '-' :: ds)
          else none
        | [] => none)
    unitExpAlts s

/-- `_normalize_exponents`: minus normalization, scientific notation, powers
of ten, unit exponents — in source order. -/
def normalizeExponents (s : Str) : Str :=
  let t0 := s.map fun c => if c = '−' then '-' else c
  let t1 := scanSubF trySci (t0.length + 1) none t0
  let t2 := scanSubF tryTen (t1.length + 1) none t1
  scanSubF tryUE (t2.length + 1) none t2

/-- The inner substitution of `_normalize_dimensional_formulas`:
`\s+[−-]\s+(\d+)` → `^-\1`.  Minimum match length 4. -/
def tryDimInner (_ : Option Char) (s : Str) : Option (Nat × Str) :=
  let k1 := spRun s
  if k1 = 0 then none
  else
    match s.drop k1 with
    | mc :: r2 =>
      if minusChar mc then
        let k2 := spRun r2
        if k2 = 0 then none
        else
          let ds := digRun (r2.drop k2)
          if ds = [] then none
          else some (k1 + 1 + k2 + ds.length, '^' :: '-' :: ds)
      else none
    | [] => none

/-- `_DIMENSIONAL_FORMULA_PATTERN = \[(.*?)\]` with the bracket-interior
rewrite: the lazy `.*?` (which cannot cross a newline) reaches up to the
first `]`; the interior gets its own scan.  Minimum match length 2. -/
def tryDim (_ : Option Char) (s : Str) : Option (Nat × Str) :=
  match s with
  | '[' :: rest =>
    let pre := rest.takeWhile fun c => !(c = ']' || c = '\n')
    match rest.drop pre.length with
    | ']' :: _ =>
      some (1 + pre.length + 1,
        '[' :: scanSubF tryDimInner (pre.length + 1) none pre ++ [']'])
    | _ => none
  | _ => none

/-- `_normalize_dimensional_formulas`. -/
def normalizeDimensional (s : Str) : Str :=
  scanSubF tryDim (s.length + 1) none s

/-- The trig alternation of `_FUNC_ARG_PATTERN`, in source order (so `cos`
is retried as `cosec` through continuation backtracking). -/
def funcAlts : List Str :=
  [['s', 'i', 'n'], ['c', 'o', 's'], ['t', 'a', 'n'], ['c', 'o', 't'],
   ['s', 'e', 'c'], ['c', 'o', 's', 'e', 'c']]

/-- `_FUNC_ARG_PATTERN = \b(sin|cos|tan|cot|sec|cosec)\s+([-−]?\d+(?:\.\d+)?)`,
replacement `\1(\2)`.  Nothing follows the argument group, so its greedy
pieces are final.  Minimum match length 5. -/
def tryFunc (prev : Option Char) (s : Str) : Option (Nat × Str) :=
  if bdry prev then
    altScan
      (fun u r =>
        let k1 := spRun r
        if k1 = 0 then none
        else
          let r1 := r.drop k1
          let ms := match r1 with
            | c :: _ => if minusChar c then [c] else []
            | [] => []
          let r2 := r1.drop ms.length
          let ds := digRun r2
          if ds = [] then none
          else
            let r3 := r2.drop ds.length
            let f := match fracTail r3 with
              | some (f, _) => f
              | none => []
            let arg := ms ++ ds ++ f
            some (u.length + k1 + arg.length, u ++ '(' :: arg ++ [')']))
      funcAlts s
  else none

/-- `_normalize_func_args`. -/
def normalizeFuncArgs (s : Str) : Str :=
  scanSubF tryFunc (s.length + 1) none s

/-- `\s*%` after a value, one-digit head as in `_PERCENT_PATTERN`. -/
def pctPlain (d : Char) (s1 : Str) : Option (Nat × Str) :=
  let k := spRun s1
  match s1.drop k with
  | '%' :: _ => some (1 + k + 1, [d, '%'])
  | _ => none

/-- `_PERCENT_PATTERN = (\d(?:\.\d+)?)\s*%`, replacement `\1%`.  Minimum
match length 2. -/
def tryPct (_ : Option Char) (s : Str) : Option (Nat × Str) :=
  match s with
  | d :: s1 =>
    if pyDigit d then
      match fracTail s1 with
      | some (f, r1) =>
        let k := spRun r1
        match r1.drop k with
        | '%' :: _ => some (1 + f.length + k + 1, d :: f ++ ['%'])
        | _ => pctPlain d s1
      | none => pctPlain d s1
    else none
  | [] => none

/-- `_normalize_percents`. -/
def normalizePercents (s : Str) : Str :=
  scanSubF tryPct (s.length + 1) none s

/-- `_MULTIPLE_SPACES = \s{2,}` → one space.  Minimum match length 2. -/
def tryCollapse (_ : Option Char) (s : Str) : Option (Nat × Str) :=
  let k := spRun s
  if 2 ≤ k then some (k, [' ']) else none

/-- `_collapse_spaces`. -/
def collapseSpaces (s : Str) : Str :=
  strip (scanSubF tryCollapse (s.length + 1) none s)

/-- `normalize_text`: the source's fixed transformation order (empty input
is returned unchanged by the `if not text` guard). -/
def normalize_text (s : Str) : Str :=
  if s = [] then s
  else
    let o1 := normalizeUnicode s
    let o2 := normalizeDecimals o1
    let o3 := normalizeUnits o2
    let o4 := normalizeSimpleFractions o3
    let o5 := normalizeExponents o4
    let o6 := normalizeDimensional o5
    let o7 := normalizeFuncArgs o6
    let o8 := normalizePercents o7
    collapseSpaces o8


/-!
### `simple_text_question_parser.py` — `MarkerBasedQuestionParser`
-/

/-- `QUESTION_START_RE = ^Q\s*\.?\s*(\d+)\s*[).:-]?$` applied to a trimmed
fragment, returning `int(group 1)`.  All greedy pieces are forced (the
character classes are disjoint), so the matcher is a deterministic scan. -/
def qStartNum (s : Str) : Option Nat :=
  match s with
  | 'Q' :: r0 =>
    let r1 := r0.dropWhile pySpace
    let r2 := match r1 with
      | '.' :: t => t.dropWhile pySpace
      | _ => r1
    let ds := digRun r2
    if ds = [] then none
    else
      let r3 := (r2.drop ds.length).dropWhile pySpace
      let r4 := match r3 with
        | c :: t => if c = ')' || c = '.' || c = ':' || c = '-' then t else c :: t
        | [] => []
      if r4 = [] then some (digitsVal ds) else none
  | _ => none

/-- Membership in `{"(1)", "(2)", "(3)", "(4)"}` together with `int(txt[1])`. -/
def markerVal (s : Str) : Option Nat :=
  match s with
  | ['(', c, ')'] =>
    if c = '1' then some 1
    else if c = '2' then some 2
    else if c = '3' then some 3
    else if c = '4' then some 4
    else none
  | _ => none

/-- Parser input fragment: `page` (or `None`) and the fragment text.  (The
source's duck-typed unwrapping of `{"text": {"text": ...}}` versus a bare
string both end in one string; the embedding takes that string as given.) -/
structure Block where
  page : Option Int
  text : Str
deriving DecidableEq

/-- One element of the source's `flat` list: original index, page, trimmed
text. -/
structure Entry where
  idx : Nat
  page : Option Int
  text : Str
deriving DecidableEq

/-- One element of `questions_meta`. -/
structure QMeta where
  qnum : Nat
  start : Nat
  page : Option Int
deriving DecidableEq

/-- One element of `markers`. -/
structure Marker where
  marker : Nat
  idx : Nat
  page : Option Int
deriving DecidableEq

/-- The `SimpleQuestion` dataclass. -/
structure SimpleQuestion where
  paper_id : Str
  question_number : Nat
  question_text : Str
  options : List Str
  page_start : Int
  page_end : Int
deriving DecidableEq

/-- The flattening loop at the top of `parse`: enumerate and trim. -/
def flatten (blocks : List Block) : List Entry :=
  blocks.enum.map fun p => ⟨p.1, p.2.page, strip p.2.text⟩

/-- The classification loop: entries whose text matches the question-start
regex become `questions_meta` rows. -/
def questionsMetaRaw (flat : List Entry) : List QMeta :=
  flat.filterMap fun e => (qStartNum e.text).map fun n => ⟨n, e.idx, e.page⟩

/-- Entries that are bare option markers (a question-start match takes
priority via `continue`; the two patterns are in fact disjoint). -/
def markersOf (flat : List Entry) : List Marker :=
  flat.filterMap fun e =>
    if (qStartNum e.text).isSome then none
    else (markerVal e.text).map fun m => ⟨m, e.idx, e.page⟩

/-- `questions_meta.sort(key=start_idx)` — Python's sort is stable; so is
insertion sort, and the start indices are distinct anyway. -/
def questionsMeta (flat : List Entry) : List QMeta :=
  List.insertionSort (fun a b => a.start ≤ b.start) (questionsMetaRaw flat)

/-- `INLINE_OPTION_PATTERN = \(([1-4])\)\s*` matched at the head: returns
the digit and the full match length (the trailing space run included). -/
def inlineMatchAt (s : Str) : Option (Nat × Nat) :=
  match s with
  | '(' :: c :: ')' :: rest =>
    if '1' ≤ c && c ≤ '4' then some (c.toNat - '0'.toNat, 3 + spRun rest)
    else none
  | _ => none

/-- `finditer` of the inline pattern: non-overlapping scan recording
`(start position, digit)`.  Fuel `length + 1` is sufficient (every step
advances). -/
def inlineFindF : Nat → Nat → Str → List (Nat × Nat)
  | 0, _, _ => []
  | f + 1, i, s =>
    match s with
    | [] => []
    | c :: cs =>
      match inlineMatchAt (c :: cs) with
      | some (dgt, len) =>
        (i, dgt) :: inlineFindF f (i + len) (List.drop len (c :: cs))
      | none => inlineFindF f (i + 1) cs

def inlineMatches (t : Str) : List (Nat × Nat) :=
  inlineFindF (t.length + 1) 0 t

/-- First-occurrence position of digit `k` (the
`if num not in marker_positions` dict build). -/
def firstPosOf (ms : List (Nat × Nat)) (k : Nat) : Option Nat :=
  (ms.find? fun m => m.2 = k).map (·.1)

/-- The option-carving loop of `_try_extract_inline_options`: for each
`(digit, position)` in physical order, re-match the pattern at the recorded
position and slice up to the next marker (or the end of the text). -/
def carveInline (t : Str) : List (Nat × Nat) → Option (List (Nat × Str))
  | [] => some []
  | (num, pos) :: rest =>
    match inlineMatchAt (t.drop pos) with
    | none => none
    | some (_, mlen) =>
      let endP := match rest with
        | [] => t.length
        | (_, p2) :: _ => p2
      let body := strip ((t.take endP).drop (pos + mlen))
      match carveInline t rest with
      | none => none
      | some l => some ((num, body) :: l)

/-- `MarkerBasedQuestionParser._try_extract_inline_options`.  The
`sorted(set(marker_nums)) == [1,2,3,4]` test reduces to "all four digits
occur" because the regex only ever captures `1`–`4`; the `ordered` list
(the position-sorted `dict.items()`) is rebuilt here by sorting the four
first-occurrence pairs by position (positions are distinct, so any initial
order gives the same sorted list). -/
def inlineDigitsOk (ms : List (Nat × Nat)) : Bool :=
  (ms.map (·.2)).contains 1 && (ms.map (·.2)).contains 2 &&
    (ms.map (·.2)).contains 3 && (ms.map (·.2)).contains 4

/-- The position-sorted `ordered` list of first-occurrence pairs. -/
def inlineOrdered (p1 p2 p3 p4 : Nat) : List (Nat × Nat) :=
  List.insertionSort (fun a b => a.2 ≤ b.2) [(1, p1), (2, p2), (3, p3), (4, p4)]

def tryInline (t : Str) : Str × List Str :=
  if inlineDigitsOk (inlineMatches t) then
    match firstPosOf (inlineMatches t) 1, firstPosOf (inlineMatches t) 2,
        firstPosOf (inlineMatches t) 3, firstPosOf (inlineMatches t) 4 with
    | some p1, some p2, some p3, some p4 =>
      match inlineOrdered p1 p2 p3 p4 with
      | [] => (t, [])
      | (_, fp) :: _ =>
        match carveInline t (inlineOrdered p1 p2 p3 p4) with
        | none => (t, [])
        | some pairs =>
          (strip (t.take fp),
            (List.insertionSort (fun a b => a.1 ≤ b.1) pairs).map (·.2))
    | _, _, _, _ => (t, [])
  else (t, [])

/-- `range_blocks = [b for b in flat if start_idx < b.idx <= end_idx]`. -/
def rangeBlocksOf (flat : List Entry) (startIdx endIdx : Nat) : List Entry :=
  flat.filter fun b => startIdx < b.idx && b.idx ≤ endIdx

/-- The non-`None` pages of the span (the source builds a set, but the set
is only consumed by `min`/`max`, for which the multiset is equivalent). -/
def pagesOf (rbs : List Entry) : List Int :=
  rbs.filterMap (·.page)

/-- Span-local markers, sorted by index. -/
def localMarkersOf (marks : List Marker) (startIdx endIdx : Nat) :
    List Marker :=
  List.insertionSort (fun a b => a.idx ≤ b.idx)
    (marks.filter fun m => startIdx < m.idx && m.idx ≤ endIdx)

/-- `min((m.idx for m in local_markers), default=None)`. -/
def firstMarkerIdx (lms : List Marker) : Option Nat :=
  (lms.map (·.idx)).min?

/-- The stem-collection loop with its `break` at the first marker. -/
def stemPartsGo (fm : Option Nat) : List Entry → List Str
  | [] => []
  | b :: bs =>
    match fm with
    | some m =>
      if m ≤ b.idx then []
      else if b.text ≠ [] then b.text :: stemPartsGo (some m) bs
      else stemPartsGo (some m) bs
    | none =>
      if b.text ≠ [] then b.text :: stemPartsGo none bs
      else stemPartsGo none bs

/-- The `" ".join(p.strip() for p in parts if p.strip()).strip()` idiom. -/
def joinStrip (parts : List Str) : Str :=
  strip (joinSp (parts.filterMap fun p =>
    let s := strip p
    if s = [] then none else some s))

/-- `stem_text` of one question span. -/
def stemTextOf (flat : List Entry) (marks : List Marker)
    (startIdx endIdx : Nat) : Str :=
  joinStrip (stemPartsGo (firstMarkerIdx (localMarkersOf marks startIdx endIdx))
    (rangeBlocksOf flat startIdx endIdx))

/-- `marker_positions[k]` — dict comprehension over `local_markers`, where a
later occurrence of the same digit overwrites an earlier one. -/
def lastMarkerPos (lms : List Marker) (k : Nat) : Option Nat :=
  ((lms.filter fun m => m.marker = k).getLast?).map (·.idx)

/-- The marker-based option loop: bodies are carved between consecutive
positions of the position-sorted `ordered` list (note: sorted by fragment
index, i.e. physical order — not by marker digit). -/
def carveMarkers (rbs : List Entry) (endIdx : Nat) :
    List (Nat × Nat) → List Str
  | [] => []
  | (_, midx) :: rest =>
    let nextIdx := match rest with
      | [] => endIdx + 1
      | (_, m2) :: _ => m2
    let bodyParts := rbs.filterMap fun b =>
      if midx < b.idx && b.idx < nextIdx && (markerVal b.text).isNone &&
          b.text ≠ [] then some b.text
      else none
    joinStrip bodyParts :: carveMarkers rbs endIdx rest

/-- The `if local_markers: ... if all(k in marker_positions ...)` block. -/
def markerOptionsOf (rbs : List Entry) (lms : List Marker) (endIdx : Nat) :
    List Str :=
  if lms = [] then []
  else
    match lastMarkerPos lms 1, lastMarkerPos lms 2, lastMarkerPos lms 3,
        lastMarkerPos lms 4 with
    | some p1, some p2, some p3, some p4 =>
      carveMarkers rbs endIdx (List.insertionSort (fun a b => a.2 ≤ b.2)
        [(1, p1), (2, p2), (3, p3), (4, p4)])
    | _, _, _, _ => []

/-- The final stem/options pair of one span: marker-based options when the
marker path produced any, otherwise the inline fallback applied to the
(pre-marker) stem text. -/
def stemAndOptions (flat : List Entry) (marks : List Marker)
    (startIdx endIdx : Nat) : Str × List Str :=
  if markerOptionsOf (rangeBlocksOf flat startIdx endIdx)
      (localMarkersOf marks startIdx endIdx) endIdx = [] then
    tryInline (stemTextOf flat marks startIdx endIdx)
  else
    (stemTextOf flat marks startIdx endIdx,
      markerOptionsOf (rangeBlocksOf flat startIdx endIdx)
        (localMarkersOf marks startIdx endIdx) endIdx)

/-- `min(pages) if pages else -1`. -/
def pageStartOf (rbs : List Entry) : Int :=
  ((pagesOf rbs).min?).getD (-1)

/-- `max(pages) if pages else -1`. -/
def pageEndOf (rbs : List Entry) : Int :=
  ((pagesOf rbs).max?).getD (-1)

/-- The body of the per-question loop in `parse`: returns `none` exactly
when the question is silently dropped (`if not stem_text: continue`). -/
def emitQ (pid : Str) (flat : List Entry) (marks : List Marker) (qm : QMeta)
    (endIdx : Nat) : Option SimpleQuestion :=
  if (stemAndOptions flat marks qm.start endIdx).1 = [] then none
  else
    some ⟨pid, qm.qnum, (stemAndOptions flat marks qm.start endIdx).1,
      (stemAndOptions flat marks qm.start endIdx).2,
      pageStartOf (rangeBlocksOf flat qm.start endIdx),
      pageEndOf (rangeBlocksOf flat qm.start endIdx)⟩

/-- `end_idx`: the `questions_meta[qi + 1]` lookahead — the next question's
start minus one, or the last flat index for the final question. -/
def spanEnd (flatLen : Nat) : List QMeta → Nat
  | [] => flatLen - 1
  | q2 :: _ => q2.start - 1

/-- The per-question loop. -/
def parseGo (pid : Str) (flat : List Entry) (marks : List Marker) :
    List QMeta → List SimpleQuestion
  | [] => []
  | qm :: rest =>
    match emitQ pid flat marks qm (spanEnd flat.length rest) with
    | none => parseGo pid flat marks rest
    | some q => q :: parseGo pid flat marks rest

/-- `MarkerBasedQuestionParser.parse`. -/
def parse (pid : Str) (blocks : List Block) : List SimpleQuestion :=
  let flat := flatten blocks
  parseGo pid flat (markersOf flat) (questionsMeta flat)

/-- `parseGo` instrumented with the start index of each emitted question's
question-start fragment (used to state the emission-order claim). -/
def parseGoAnn (pid : Str) (flat : List Entry) (marks : List Marker) :
    List QMeta → List (Nat × SimpleQuestion)
  | [] => []
  | qm :: rest =>
    match emitQ pid flat marks qm (spanEnd flat.length rest) with
    | none => parseGoAnn pid flat marks rest
    | some q => (qm.start, q) :: parseGoAnn pid flat marks rest

/-- `parse`, paired with each question's start-fragment index. -/
def parseAnn (pid : Str) (blocks : List Block) :
    List (Nat × SimpleQuestion) :=
  let flat := flatten blocks
  parseGoAnn pid flat (markersOf flat) (questionsMeta flat)

/-- A fragment on page 1, as used in the concrete inputs below. -/
def fr (t : String) : Block :=
  ⟨some 1, t.toList⟩

/-!
### `answer_key_extractor.py` — `AnswerKeyExtractor`
-/

/-- A Python `dict[int, str]` in insertion order: an update of an existing
key replaces the value in place. -/
abbrev AnswerDict := List (Nat × Str)

/-- `answers[k] = v`. -/
def dictInsert (k : Nat) (v : Str) : AnswerDict → AnswerDict
  | [] => [(k, v)]
  | (k', v') :: rest =>
    if k' = k then (k, v) :: rest else (k', v') :: dictInsert k v rest

/-- `answers.get(k)`. -/
def dictLookup (k : Nat) : AnswerDict → Option Str
  | [] => none
  | (k', v) :: rest => if k' = k then some v else dictLookup k rest

/-- Extractor input block: `text` is the unwrapped string (`none` models a
value that is neither a `dict` nor a `str`, which the source skips). -/
structure KBlock where
  text : Option Str
deriving DecidableEq

/-- `_combine_text_blocks`: keep nonempty texts, join with newlines. -/
def combineTextBlocks (bs : List KBlock) : Str :=
  List.intercalate ['\n'] (bs.filterMap fun b =>
    match b.text with
    | some t => if t = [] then none else some t
    | none => none)

/-- `[.)\-:]*`. -/
def punctRun (s : Str) : Nat :=
  (s.takeWhile fun c => c = '.' || c = ')' || c = '-' || c = ':').length

/-- `PATTERN_Q_NUMBER = Q\s*(\d+)\s*[.)\-:]*\s*\((\d+)\)` (IGNORECASE) at
the head: returns (consumed length, question number, answer digits).  All
greedy runs are over pairwise disjoint character classes, so the scan is
deterministic. -/
def qPatAt (s : Str) : Option (Nat × Nat × Str) :=
  match s with
  | c :: r0 =>
    if c = 'Q' || c = 'q' then
      let k1 := spRun r0
      let r1 := r0.drop k1
      let ds1 := digRun r1
      if ds1 = [] then none
      else
        let r2 := r1.drop ds1.length
        let k2 := spRun r2
        let r3 := r2.drop k2
        let p := punctRun r3
        let r4 := r3.drop p
        let k3 := spRun r4
        match r4.drop k3 with
        | '(' :: r5 =>
          let ds2 := digRun r5
          if ds2 = [] then none
          else
            match r5.drop ds2.length with
            | ')' :: _ =>
              some (1 + k1 + ds1.length + k2 + p + k3 + 1 + ds2.length + 1,
                digitsVal ds1, ds2)
            | _ => none
        | _ => none
    else none
  | [] => none

/-- `findall` for the Q-number pattern. -/
def qFindF : Nat → Str → List (Nat × Str)
  | 0, _ => []
  | f + 1, s =>
    match s with
    | [] => []
    | c :: cs =>
      match qPatAt (c :: cs) with
      | some (n, q, a) => (q, a) :: qFindF f (List.drop n (c :: cs))
      | none => qFindF f cs

def qMatches (t : Str) : List (Nat × Str) :=
  qFindF (t.length + 1) t

/-- `_try_extract_q_pattern`: build the dict, later duplicates overwriting
earlier ones (`int` on a `\d+` capture never fails). -/
def tryQPattern (t : Str) : AnswerDict :=
  (qMatches t).foldl (fun d m => dictInsert m.1 (strip m.2) d) []

/-- The part of `PATTERN_NUM_ONLY` after the `(?:^|\n)` anchor. -/
def numPatBody (s : Str) : Option (Nat × Nat × Str) :=
  let k1 := spRun s
  let r1 := s.drop k1
  let ds1 := digRun r1
  if ds1 = [] then none
  else
    let r2 := r1.drop ds1.length
    let k2 := spRun r2
    let r3 := r2.drop k2
    let p := punctRun r3
    let r4 := r3.drop p
    let k3 := spRun r4
    match r4.drop k3 with
    | '(' :: r5 =>
      let ds2 := digRun r5
      if ds2 = [] then none
      else
        match r5.drop ds2.length with
        | ')' :: _ =>
          some (k1 + ds1.length + k2 + p + k3 + 1 + ds2.length + 1,
            digitsVal ds1, ds2)
        | _ => none
    | _ => none

/-- `PATTERN_NUM_ONLY = (?:^|\n)\s*(\d+)\s*[.)\-:]*\s*\((\d+)\)`
(MULTILINE): the `^` alternative applies zero-width at the string start or
after a newline; otherwise a literal `\n` may be consumed. -/
def tryNumAt (prev : Option Char) (s : Str) : Option (Nat × Nat × Str) :=
  let nl : Option (Nat × Nat × Str) :=
    match s with
    | '\n' :: r => (numPatBody r).map fun v => (v.1 + 1, v.2)
    | _ => none
  if prev = none || prev = some '\n' then
    match numPatBody s with
    | some v => some v
    | none => nl
  else nl

/-- `findall` for the bare-number pattern (with previous-character
tracking for the line anchor). -/
def numFindF : Nat → Option Char → Str → List (Nat × Str)
  | 0, _, _ => []
  | f + 1, prev, s =>
    match s with
    | [] => []
    | c :: cs =>
      match tryNumAt prev (c :: cs) with
      | some (n, q, a) =>
        (q, a) :: numFindF f ((List.take n (c :: cs)).getLast?)
          (List.drop n (c :: cs))
      | none => numFindF f (some c) cs

def numMatches (t : Str) : List (Nat × Str) :=
  numFindF (t.length + 1) none t

/-- `_try_extract_num_pattern` (question number 0 is skipped). -/
def tryNumPattern (t : Str) : AnswerDict :=
  (numMatches t).foldl
    (fun d m => if m.1 = 0 then d else dictInsert m.1 (strip m.2) d) []

/-- `PATTERN_ANSWER_SEQUENCE = \((\d+)\)` at the head. -/
def parenAt (s : Str) : Option (Nat × Str) :=
  match s with
  | '(' :: r =>
    let ds := digRun r
    if ds = [] then none
    else
      match r.drop ds.length with
      | ')' :: _ => some (1 + ds.length + 1, ds)
      | _ => none
  | _ => none

/-- `findall` for the parenthesized-number pattern. -/
def parenFindF : Nat → Str → List Str
  | 0, _ => []
  | f + 1, s =>
    match s with
    | [] => []
    | c :: cs =>
      match parenAt (c :: cs) with
      | some (n, ds) => ds :: parenFindF f (List.drop n (c :: cs))
      | none => parenFindF f cs

def parenMatches (t : Str) : List Str :=
  parenFindF (t.length + 1) t

/-- The `enumerate(matches, 1)` dict build of `_try_extract_sequence`. -/
def seqDict : Nat → List Str → AnswerDict → AnswerDict
  | _, [], d => d
  | i, a :: rest, d => seqDict (i + 1) rest (dictInsert i (strip a) d)

/-- `_try_extract_sequence`. -/
def trySequence (t : Str) : AnswerDict :=
  if (parenMatches t).length < 10 then [] else seqDict 1 (parenMatches t) []

/-- `extract_from_text_blocks` after text combination: the empty-text guard,
then the three strategies in priority order, first nonempty result wins. -/
def extractText (t : Str) : AnswerDict :=
  if strip t = [] then []
  else if tryQPattern t ≠ [] then tryQPattern t
  else if tryNumPattern t ≠ [] then tryNumPattern t
  else if trySequence t ≠ [] then trySequence t
  else []

/-- `AnswerKeyExtractor.extract_from_text_blocks`. -/
def extract_from_text_blocks (bs : List KBlock) : AnswerDict :=
  extractText (combineTextBlocks bs)

/-!
### Concrete inputs used by the per-claim theorems
-/

/-- Paper id used by every concrete parse below. -/
def pid0 : Str := "p".toList

/-- The spec's concrete scenario 2: marker-only fragments in physical order
(3), (1), (4), (2). -/
def cexC1 : List Block :=
  [fr "Q5", fr "Stem text", fr "(3)", fr "C-text", fr "(1)", fr "A-text",
   fr "(4)", fr "D-text", fr "(2)", fr "B-text"]

/-- A `Q0` label and two `Q1` labels, each with a nonempty span. -/
def cexC2 : List Block :=
  [fr "Q0", fr "x", fr "Q1", fr "foo", fr "Q1", fr "bar"]

/-- Marker `(1)` with no body fragment before `(2)`. -/
def cexC3 : List Block :=
  [fr "Q1", fr "stem?", fr "(1)", fr "(2)", fr "a", fr "(3)", fr "b",
   fr "(4)", fr "c"]

/-- A span with a partial marker-only set `(3)`, `(4)`: the fallback input
is truncated at the first marker fragment. -/
def cexC5 : List Block :=
  [fr "Q1", fr "intro (1) a (2) b", fr "(3)", fr "(4)", fr "tail"]

/-- The full concatenated text of the single span of `cexC5` (what the
claim says the inline fallback is applied to). -/
def fullSpanC5 : Str :=
  "intro (1) a (2) b (3) (4) tail".toList

/-!
### Helper lemmas
-/

/-!
### Helper lemmas
-/

theorem spRun_le (s : Str) : spRun s ≤ s.length :=
  List.Sublist.length_le (List.takeWhile_sublist pySpace)

theorem tryDec_spec {prev : Option Char} {s : Str} {n : Nat} {rep : Str}
    (h : tryDec prev s = some (n, rep)) :
    rep.length = 3 ∧ 3 ≤ n ∧ n ≤ s.length ∧
      (n = 3 → s = rep ++ s.drop n) := by
  unfold tryDec at h
  cases s with
  | nil => simp at h
  | cons d rest =>
    simp only at h
    split at h
    · split at h
      next heq1 =>
        rename_i r2
        split at h
        next heq2 =>
          rename_i e r4
          split at h
          next he =>
            simp only [Option.some.injEq, Prod.mk.injEq] at h
            obtain ⟨hn, hrep⟩ := h
            have hk1 : spRun rest ≤ rest.length := spRun_le rest
            have hk2 : spRun r2 ≤ r2.length := spRun_le r2
            have hlen1 : rest.length - spRun rest = r2.length + 1 := by
              rw [← List.length_drop, heq1]; simp
            have hlen2 : r2.length - spRun r2 = r4.length + 1 := by
              rw [← List.length_drop, heq2]; simp
            refine ⟨by rw [← hrep]; simp, by omega, by simp; omega, ?_⟩
            intro h3
            have hk10 : spRun rest = 0 := by omega
            have hk20 : spRun r2 = 0 := by omega
            rw [hk10, List.drop_zero] at heq1
            rw [hk20, List.drop_zero] at heq2
            subst heq1 heq2
            rw [← hrep, h3]
            simp
          · simp at h
        · simp at h
      · simp at h
    · simp at h



theorem scanDec_le : ∀ (f : Nat) (prev : Option Char) (s : Str),
    s.length < f →
    (scanSubF tryDec f prev s).length ≤ s.length ∧
      ((scanSubF tryDec f prev s).length = s.length →
        scanSubF tryDec f prev s = s) := by
  intro f
  induction f with
  | zero => exact fun prev s h => absurd h (Nat.not_lt_zero _)
  | succ f ih =>
    intro prev s hf
    cases s with
    | nil => simp [scanSubF]
    | cons c cs =>
      have hsl : (c :: cs).length = cs.length + 1 := by simp
      rw [scanSubF]
      cases htry : tryDec prev (c :: cs) with
      | none =>
        simp only
        have hih := ih (some c) cs (by omega)
        refine ⟨by simpa using hih.1, ?_⟩
        intro hlen
        have : (scanSubF tryDec f (some c) cs).length = cs.length := by
          simpa using hlen
        rw [hih.2 this]
      | some p =>
        obtain ⟨n, rep⟩ := p
        simp only
        obtain ⟨hrep3, hn3, hnle, heq3⟩ := tryDec_spec htry
        have hdl : (List.drop n (c :: cs)).length = (c :: cs).length - n :=
          List.length_drop ..
        have hih := ih ((List.take n (c :: cs)).getLast?)
          (List.drop n (c :: cs)) (by omega)
        refine ⟨?_, ?_⟩
        · rw [List.length_append, hrep3]; omega
        · intro hlen
          rw [List.length_append, hrep3] at hlen
          have h1 : (scanSubF tryDec f ((List.take n (c :: cs)).getLast?)
              (List.drop n (c :: cs))).length =
              (List.drop n (c :: cs)).length := by omega
          have hn : n = 3 := by
            have := hih.1
            omega
          rw [hih.2 h1]
          exact (heq3 hn).symm

theorem decSub_length_le (s : Str) : (decSub s).length ≤ s.length :=
  (scanDec_le (s.length + 1) none s (Nat.lt_succ_self _)).1

theorem decSub_eq_of_length (s : Str) (h : (decSub s).length = s.length) :
    decSub s = s :=
  (scanDec_le (s.length + 1) none s (Nat.lt_succ_self _)).2 h

theorem decSub_length_lt {s : Str} (h : decSub s ≠ s) :
    (decSub s).length < s.length := by
  rcases Nat.lt_or_ge (decSub s).length s.length with hlt | hge
  · exact hlt
  · exact absurd (decSub_eq_of_length s
      (Nat.le_antisymm (decSub_length_le s) hge)) h

theorem decLoopF_fix : ∀ (f : Nat) (s : Str), s.length < f →
    decSub (decLoopF f s) = decLoopF f s := by
  intro f
  induction f with
  | zero => exact fun s h => absurd h (Nat.not_lt_zero _)
  | succ f ih =>
    intro s hf
    rw [decLoopF]
    by_cases hfix : decSub s = s
    · simp only [hfix, if_pos rfl]
      exact hfix
    · simp only [if_neg hfix]
      exact ih (decSub s) (by
        have := decSub_length_lt hfix
        omega)

/-!
### Claim theorems
-/

/--
C1 (code_bug evidence).  The claim says both option paths order the emitted
options by marker digit 1,2,3,4.  On the spec's own scenario-2 input the
marker path emits the four bodies in *physical* marker order
`C-text, A-text, D-text, B-text` (the `ordered` list in `parse` is sorted by
fragment index and never re-sorted by digit), while — second conjunct — the
inline fallback *does* re-sort the same scrambled layout by digit.
-/
theorem c1_marker_path_keeps_physical_order :
    parse pid0 cexC1 =
      [⟨pid0, 5, "Stem text".toList,
        ["C-text".toList, "A-text".toList, "D-text".toList, "B-text".toList],
        1, 1⟩] ∧
    (tryInline
        ("Stem text? (3) C-text (1) A-text (4) D-text (2) B-text".toList)).2 =
      ["A-text".toList, "B-text".toList, "C-text".toList, "D-text".toList] :=
  ⟨by decide, by decide⟩

/--
C2 (counterexample).  The claim says every emitted `question_number` is
`≥ 1` and numbers are unique, the later duplicate label winning.  On
`cexC2` the parser emits numbers `[0, 1, 1]`: a `Q0` label yields number 0,
and both `Q1` spans are emitted.
-/
theorem c2_counterexample :
    (parse pid0 cexC2).map SimpleQuestion.question_number = [0, 1, 1] ∧
    ¬ (∀ q ∈ parse pid0 cexC2, 1 ≤ q.question_number) ∧
    ¬ List.Pairwise (fun a b => a.question_number ≠ b.question_number)
        (parse pid0 cexC2) :=
  ⟨by decide, by decide, by decide⟩

/--
C3 (counterexample).  The claim says every option of a 4-option question is
nonempty after trimming.  On `cexC3` the marker `(1)` has no body fragment,
so the parser emits `["", "a", "b", "c"]`.
-/
theorem c3_counterexample :
    parse pid0 cexC3 =
      [⟨pid0, 1, "stem?".toList,
        [[], "a".toList, "b".toList, "c".toList], 1, 1⟩] ∧
    ¬ (∀ q ∈ parse pid0 cexC3, q.options.length = 4 →
        ∀ o ∈ q.options, strip o ≠ []) :=
  ⟨by decide, by decide⟩

/--
C5 (counterexample).  The claim says that with no complete marker-only set
the inline fallback is applied to the *full* concatenated span text.  On
`cexC5` the span holds marker fragments `(3)`, `(4)` (an incomplete set),
the fallback input is truncated at the first marker fragment, and the
emitted question is `("intro (1) a (2) b", [])` — whereas the fallback on
the full span text would have produced stem `"intro"` with four options.
-/
theorem c5_counterexample :
    parse pid0 cexC5 =
      [⟨pid0, 1, "intro (1) a (2) b".toList, [], 1, 1⟩] ∧
    tryInline fullSpanC5 =
      ("intro".toList, ["a".toList, "b".toList, [], "tail".toList]) ∧
    ¬ (∀ q ∈ parse pid0 cexC5,
        (q.question_text, q.options) = tryInline fullSpanC5) :=
  ⟨by decide, by decide, by decide⟩

/--
C6 (code_bug evidence).  The spec (and the docstring of
`_normalize_decimals`) promise `normalize("0 . 3 0 m") == "0.30 m"`, but
the repeated `(\d)\s*\.\s*(\d)` substitution consumes the second digit of
each match, so the split second digit is never joined: the code returns
`"0.3 0 m"`.  The second conjunct shows the module docstring's other
example, `"0 . 30   m"`, does work.
-/
theorem c6_decimal_despacing_failing_input :
    normalize_text ("0 . 3 0 m".toList) = "0.3 0 m".toList ∧
    normalize_text ("0 . 30   m".toList) = "0.30 m".toList :=
  ⟨by decide, by decide⟩

/--
C7 (counterexample).  `normalize_text` is not idempotent: on `"7x 101 2"`
the first pass rewrites the scientific notation to `"7 x 10^1 2"`, and only
a second pass can then see `"1 2"` as a standalone fraction (the fresh `^`
creates the required word boundary), giving `"7 x 10^1/2"`.
-/
theorem c7_counterexample :
    normalize_text (normalize_text ("7x 101 2".toList)) ≠
      normalize_text ("7x 101 2".toList) := by
  decide

/--
C7 (amended).  `normalize_text` is not idempotent (see `c7_counterexample`),
but the decimal de-spacing transformation is a genuine fixed-point
reduction: `_normalize_decimals` runs its substitution to a fixed point, so
applying it again changes nothing, for every string.
-/
theorem c7_amended_decimals_idempotent (s : Str) :
    normalizeDecimals (normalizeDecimals s) = normalizeDecimals s := by
  have hfix : decSub (normalizeDecimals s) = normalizeDecimals s :=
    decLoopF_fix (s.length + 1) s (Nat.lt_succ_self _)
  unfold normalizeDecimals at hfix ⊢
  conv_lhs => rw [decLoopF]
  simp [hfix]

/-!
### Parser and extractor lemmas, and the remaining claim theorems
-/


theorem dropWhile_head_false {p : Char → Bool} :
    ∀ {l c t}, List.dropWhile p l = c :: t → p c = false := by
  intro l
  induction l with
  | nil => intro c t h; simp at h
  | cons a l' ih =>
    intro c t h
    rw [List.dropWhile_cons] at h
    by_cases hp : p a
    · exact ih (by simpa [hp] using h)
    · have : a = c := by
        injection (by simpa [hp] using h : a :: l' = c :: t)
      subst this
      simpa using hp

theorem dropWhile_dropWhile {p : Char → Bool} (l : List Char) :
    List.dropWhile p (List.dropWhile p l) = List.dropWhile p l := by
  cases h : List.dropWhile p l with
  | nil => rfl
  | cons c t => rw [List.dropWhile_cons, dropWhile_head_false h]; simp

theorem strip_strip (s : Str) : strip (strip s) = strip s := by
  unfold strip
  set A := s.dropWhile pySpace with hA
  set B := A.reverse.dropWhile pySpace with hB
  have h1 : B.reverse.dropWhile pySpace = B.reverse := by
    cases hc : B.reverse with
    | nil => simp
    | cons c t =>
      have hsuf : B <:+ A.reverse := by
        rw [hB]; exact List.dropWhile_suffix pySpace
      have hpre : B.reverse <+: A := by
        simpa using List.reverse_prefix.mpr hsuf
      rcases hpre with ⟨u, hu⟩
      rw [hc] at hu
      have hA2 : List.dropWhile pySpace s = c :: (t ++ u) := by
        rw [← hA, ← hu]; simp
      rw [List.dropWhile_cons, dropWhile_head_false hA2]
      simp
  rw [h1, List.reverse_reverse]
  have h2 : B.dropWhile pySpace = B := by
    rw [hB]; exact dropWhile_dropWhile _
  rw [h2]

theorem carveMarkers_length (rbs : List Entry) (endIdx : Nat) :
    ∀ l : List (Nat × Nat), (carveMarkers rbs endIdx l).length = l.length := by
  intro l
  induction l with
  | nil => rfl
  | cons x rest ih =>
    cases x
    simp [carveMarkers, ih]

theorem carveMarkers_mem (rbs : List Entry) (endIdx : Nat) :
    ∀ (l : List (Nat × Nat)) (o : Str),
      o ∈ carveMarkers rbs endIdx l → ∃ u, o = strip u := by
  intro l
  induction l with
  | nil => intro o ho; simp [carveMarkers] at ho
  | cons x rest ih =>
    intro o ho
    cases x with
    | mk k midx =>
      simp only [carveMarkers] at ho
      rcases List.mem_cons.mp ho with h | h
      · exact ⟨_, by rw [h]; rfl⟩
      · exact ih o h

theorem markerOptionsOf_spec (rbs : List Entry) (lms : List Marker)
    (endIdx : Nat) :
    markerOptionsOf rbs lms endIdx = [] ∨
      ((markerOptionsOf rbs lms endIdx).length = 4 ∧
        ∀ o ∈ markerOptionsOf rbs lms endIdx, ∃ u, o = strip u) := by
  unfold markerOptionsOf
  split
  · exact Or.inl rfl
  · split
    next p1 p2 p3 p4 _ _ _ _ =>
      refine Or.inr ⟨?_, ?_⟩
      · rw [carveMarkers_length]
        simpa using List.Perm.length_eq
          (List.perm_insertionSort (fun a b => a.2 ≤ b.2)
            [(1, p1), (2, p2), (3, p3), (4, p4)])
      · intro o ho
        exact carveMarkers_mem _ _ _ o ho
    next => exact Or.inl rfl

theorem carveInline_length (t : Str) :
    ∀ (l : List (Nat × Nat)) (pairs : List (Nat × Str)),
      carveInline t l = some pairs → pairs.length = l.length := by
  intro l
  induction l with
  | nil =>
    intro pairs h
    simp only [carveInline, Option.some.injEq] at h
    rw [← h]
    rfl
  | cons x rest ih =>
    intro pairs h
    cases x with
    | mk num pos =>
      simp only [carveInline] at h
      cases hm : inlineMatchAt (t.drop pos) with
      | none => rw [hm] at h; simp at h
      | some v =>
        rw [hm] at h
        cases hc : carveInline t rest with
        | none => rw [hc] at h; simp at h
        | some l2 =>
          rw [hc] at h
          simp only [Option.some.injEq] at h
          rw [← h]
          simp [ih l2 hc]

theorem carveInline_mem (t : Str) :
    ∀ (l : List (Nat × Nat)) (pairs : List (Nat × Str)),
      carveInline t l = some pairs →
      ∀ x ∈ pairs, ∃ u, x.2 = strip u := by
  intro l
  induction l with
  | nil =>
    intro pairs h x hx
    simp only [carveInline, Option.some.injEq] at h
    rw [← h] at hx
    simp at hx
  | cons y rest ih =>
    intro pairs h x hx
    cases y with
    | mk num pos =>
      simp only [carveInline] at h
      cases hm : inlineMatchAt (t.drop pos) with
      | none => rw [hm] at h; simp at h
      | some v =>
        rw [hm] at h
        cases hc : carveInline t rest with
        | none => rw [hc] at h; simp at h
        | some l2 =>
          rw [hc] at h
          simp only [Option.some.injEq] at h
          rw [← h] at hx
          rcases List.mem_cons.mp hx with hx1 | hx1
          · exact ⟨_, by rw [hx1]⟩
          · exact ih l2 hc x hx1

theorem tryInline_spec (t : Str) :
    (tryInline t).2 = [] ∨
      ((tryInline t).2.length = 4 ∧
        ∀ o ∈ (tryInline t).2, ∃ u, o = strip u) := by
  unfold tryInline
  split
  · split
    next p1 p2 p3 p4 _ _ _ _ =>
      split
      next => exact Or.inl rfl
      next hd fp tl hord =>
        cases hc : carveInline t (inlineOrdered p1 p2 p3 p4) with
        | none => simp [hc]
        | some pairs =>
          simp only [hc]
          refine Or.inr ⟨?_, ?_⟩
          · have hl := carveInline_length t _ pairs hc
            have hp := List.Perm.length_eq
              (List.perm_insertionSort (fun a b => a.1 ≤ b.1) pairs)
            have hq : (inlineOrdered p1 p2 p3 p4).length = 4 := by
              simpa using List.Perm.length_eq
                (List.perm_insertionSort (fun a b => a.2 ≤ b.2)
                  [(1, p1), (2, p2), (3, p3), (4, p4)])
            simp only [List.length_map]
            omega
          · intro o ho
            simp only [List.mem_map] at ho
            rcases ho with ⟨x, hx, rfl⟩
            have hx2 : x ∈ pairs := (List.mem_insertionSort _).mp hx
            exact carveInline_mem t _ pairs hc x hx2
    next => exact Or.inl rfl
  · exact Or.inl rfl

theorem stemAndOptions_snd_spec (flat : List Entry) (marks : List Marker)
    (startIdx endIdx : Nat) :
    (stemAndOptions flat marks startIdx endIdx).2 = [] ∨
      ((stemAndOptions flat marks startIdx endIdx).2.length = 4 ∧
        ∀ o ∈ (stemAndOptions flat marks startIdx endIdx).2,
          ∃ u, o = strip u) := by
  unfold stemAndOptions
  split
  · exact tryInline_spec _
  · exact markerOptionsOf_spec _ _ _

theorem emitQ_spec {pid : Str} {flat : List Entry} {marks : List Marker}
    {qm : QMeta} {endIdx : Nat} {q : SimpleQuestion}
    (h : emitQ pid flat marks qm endIdx = some q) :
    q.question_number = qm.qnum ∧
      (q.options.length = 0 ∨ q.options.length = 4) ∧
      (∀ o ∈ q.options, ∃ u, o = strip u) := by
  unfold emitQ at h
  split at h
  · exact absurd h (by simp)
  · simp only [Option.some.injEq] at h
    rw [← h]
    refine ⟨rfl, ?_, ?_⟩
    · rcases stemAndOptions_snd_spec flat marks qm.start endIdx with h0 | h4
      · exact Or.inl (by simp [h0])
      · exact Or.inr (by simp [h4.1])
    · intro o ho
      rcases stemAndOptions_snd_spec flat marks qm.start endIdx with h0 | h4
      · rw [h0] at ho; simp at ho
      · exact h4.2 o ho

theorem mem_parseGo (pid : Str) (flat : List Entry) (marks : List Marker) :
    ∀ (metas : List QMeta) (q : SimpleQuestion),
      q ∈ parseGo pid flat marks metas →
      ∃ qm, qm ∈ metas ∧ ∃ endIdx, emitQ pid flat marks qm endIdx = some q := by
  intro metas
  induction metas with
  | nil => intro q hq; simp [parseGo] at hq
  | cons qm rest ih =>
    intro q hq
    simp only [parseGo] at hq
    cases hemit : emitQ pid flat marks qm (spanEnd flat.length rest) with
    | none =>
      rw [hemit] at hq
      rcases ih q hq with ⟨qm', h1, h2⟩
      exact ⟨qm', List.mem_cons_of_mem _ h1, h2⟩
    | some q' =>
      rw [hemit] at hq
      rcases List.mem_cons.mp hq with h | h
      · exact ⟨qm, List.mem_cons_self .., spanEnd flat.length rest,
          by rw [hemit, h]⟩
      · rcases ih q h with ⟨qm', h1, h2⟩
        exact ⟨qm', List.mem_cons_of_mem _ h1, h2⟩

theorem parseGo_eq_map_ann (pid : Str) (flat : List Entry)
    (marks : List Marker) :
    ∀ metas : List QMeta,
      parseGo pid flat marks metas =
        (parseGoAnn pid flat marks metas).map Prod.snd := by
  intro metas
  induction metas with
  | nil => rfl
  | cons qm rest ih =>
    simp only [parseGo, parseGoAnn]
    cases hemit : emitQ pid flat marks qm (spanEnd flat.length rest) with
    | none => simpa [hemit] using ih
    | some q => simp [hemit, ih]

theorem parseGoAnn_fst_mem (pid : Str) (flat : List Entry)
    (marks : List Marker) :
    ∀ (metas : List QMeta) (x : Nat × SimpleQuestion),
      x ∈ parseGoAnn pid flat marks metas → x.1 ∈ metas.map QMeta.start := by
  intro metas
  induction metas with
  | nil => intro x hx; simp [parseGoAnn] at hx
  | cons qm rest ih =>
    intro x hx
    simp only [parseGoAnn] at hx
    cases hemit : emitQ pid flat marks qm (spanEnd flat.length rest) with
    | none =>
      rw [hemit] at hx
      simp only [List.map_cons]
      exact List.mem_cons_of_mem _ (ih x hx)
    | some q =>
      rw [hemit] at hx
      rcases List.mem_cons.mp hx with h | h
      · subst h; simp
      · simp only [List.map_cons]
        exact List.mem_cons_of_mem _ (ih x h)

theorem parseGoAnn_pairwise (pid : Str) (flat : List Entry)
    (marks : List Marker) :
    ∀ metas : List QMeta,
      metas.Pairwise (fun a b => a.start < b.start) →
      (parseGoAnn pid flat marks metas).Pairwise (fun a b => a.1 < b.1) := by
  intro metas
  induction metas with
  | nil => intro _; simp [parseGoAnn]
  | cons qm rest ih =>
    intro hp
    rw [List.pairwise_cons] at hp
    simp only [parseGoAnn]
    cases hemit : emitQ pid flat marks qm (spanEnd flat.length rest) with
    | none => exact ih hp.2
    | some q =>
      refine List.Pairwise.cons ?_ (ih hp.2)
      intro y hy
      have hmem := parseGoAnn_fst_mem pid flat marks rest y hy
      rcases List.mem_map.mp hmem with ⟨b, hb, hbe⟩
      simpa [← hbe] using hp.1 b hb

theorem flatten_idx_pairwise (blocks : List Block) :
    (flatten blocks).Pairwise (fun a b => a.idx < b.idx) := by
  unfold flatten
  rw [List.pairwise_map]
  have h1 : (blocks.enum.map Prod.fst).Pairwise (· < ·) := by
    rw [List.enum_map_fst]; exact List.pairwise_lt_range _
  rw [List.pairwise_map] at h1
  exact h1

theorem questionsMetaRaw_pairwise (flat : List Entry)
    (h : flat.Pairwise (fun a b => a.idx < b.idx)) :
    (questionsMetaRaw flat).Pairwise (fun a b => a.start < b.start) := by
  unfold questionsMetaRaw
  refine List.Pairwise.filterMap _ ?_ h
  intro a b hab c hc d hd
  cases hqa : qStartNum a.text with
  | none => simp [hqa] at hc
  | some n =>
    cases hqb : qStartNum b.text with
    | none => simp [hqb] at hd
    | some m =>
      simp only [hqa, hqb, Option.map_some', Option.mem_def,
        Option.some.injEq] at hc hd
      subst hc hd
      exact hab

theorem questionsMeta_eq_raw (flat : List Entry)
    (h : flat.Pairwise (fun a b => a.idx < b.idx)) :
    questionsMeta flat = questionsMetaRaw flat := by
  unfold questionsMeta
  exact List.Sorted.insertionSort_eq
    ((questionsMetaRaw_pairwise flat h).imp Nat.le_of_lt)

theorem questionsMeta_pairwise (blocks : List Block) :
    (questionsMeta (flatten blocks)).Pairwise
      (fun a b => a.start < b.start) := by
  rw [questionsMeta_eq_raw _ (flatten_idx_pairwise blocks)]
  exact questionsMetaRaw_pairwise _ (flatten_idx_pairwise blocks)

/--
C10.  `parse` emits questions in input-stream order of their question-start
fragments, not sorted by question number: `parseAnn` pairs each emitted
question with the fragment index of its question-start label, `parse` is its
second projection, and the paired start indices are strictly increasing
along the output.  Concretely (second conjunct), a `Q7` label appearing
before a `Q3` label yields the records in order `[7, 3]`.
-/
theorem c10_emission_in_stream_order :
    (∀ (pid : Str) (blocks : List Block),
      parse pid blocks = (parseAnn pid blocks).map Prod.snd ∧
      (parseAnn pid blocks).Pairwise (fun a b => a.1 < b.1)) ∧
    (parse pid0 [fr "Q7", fr "seven", fr "Q3", fr "three"]).map
      SimpleQuestion.question_number = [7, 3] := by
  refine ⟨fun pid blocks => ⟨?_, ?_⟩, by decide⟩
  · exact parseGo_eq_map_ann pid (flatten blocks)
      (markersOf (flatten blocks)) (questionsMeta (flatten blocks))
  · exact parseGoAnn_pairwise pid (flatten blocks)
      (markersOf (flatten blocks)) (questionsMeta (flatten blocks))
      (questionsMeta_pairwise blocks)

def s1Blocks : List Block :=
  [fr "Q1.", fr "What is 2+2", fr "(1)", fr "3", fr "(2)", fr "4",
   fr "(3)", fr "5", fr "(4)", fr "6"]

def s1Q : SimpleQuestion :=
  ⟨pid0, 1, "What is 2+2".toList,
    ["3".toList, "4".toList, "5".toList, "6".toList], 1, 1⟩

/--
C4.  Every question emitted by `MarkerBasedQuestionParser.parse` has an
options list of length exactly 0 or exactly 4, for every paper id and every
input fragment sequence: the marker path carves one body per digit of the
full set `1..4` (or produces nothing), and the inline fallback either fails
(no options) or carves all four.
-/
theorem c4_options_len_zero_or_four :
    ∀ (pid : Str) (blocks : List Block) (q : SimpleQuestion),
      q ∈ parse pid blocks →
      q.options.length = 0 ∨ q.options.length = 4 := by
  intro pid blocks q hq
  rcases mem_parseGo pid (flatten blocks) (markersOf (flatten blocks))
    (questionsMeta (flatten blocks)) q hq with ⟨qm, _, endIdx, hemit⟩
  exact (emitQ_spec hemit).2.1

/-- Witness for C4 at the spec's scenario-1 input. -/
theorem c4_witness :
    s1Q.options.length = 0 ∨ s1Q.options.length = 4 :=
  c4_options_len_zero_or_four pid0 s1Blocks s1Q (by decide)

/--
C3 (amended).  Every option string of every emitted question is trimmed
(equal to its own `strip`), but it may be empty — the parser does not
guarantee non-emptiness (see `c3_counterexample`): both option paths build
each option with a final `strip`, and `strip` is idempotent.
-/
theorem c3_amended_options_trimmed :
    ∀ (pid : Str) (blocks : List Block) (q : SimpleQuestion),
      q ∈ parse pid blocks → ∀ o ∈ q.options, strip o = o := by
  intro pid blocks q hq o ho
  rcases mem_parseGo pid (flatten blocks) (markersOf (flatten blocks))
    (questionsMeta (flatten blocks)) q hq with ⟨qm, _, endIdx, hemit⟩
  rcases (emitQ_spec hemit).2.2 o ho with ⟨u, hu⟩
  rw [hu, strip_strip]

/-- Witness for the amended C3 at the scenario-1 input and its option
`"3"`. -/
theorem c3_amended_witness : strip ("3".toList) = "3".toList :=
  c3_amended_options_trimmed pid0 s1Blocks s1Q (by decide)
    ("3".toList) (by decide)

/--
C2 (amended).  Every emitted `question_number` is the number parsed from the
question-start label of some input fragment (which may be `0`, and may
repeat: each label with a nonempty span is emitted as its own question; see
`c2_counterexample`).
-/
theorem c2_amended_number_from_label :
    ∀ (pid : Str) (blocks : List Block) (q : SimpleQuestion),
      q ∈ parse pid blocks →
      ∃ e, e ∈ flatten blocks ∧
        qStartNum e.text = some q.question_number := by
  intro pid blocks q hq
  rcases mem_parseGo pid (flatten blocks) (markersOf (flatten blocks))
    (questionsMeta (flatten blocks)) q hq with ⟨qm, hqm, endIdx, hemit⟩
  have hnum := (emitQ_spec hemit).1
  have hqm2 : qm ∈ questionsMetaRaw (flatten blocks) := by
    have h1 : qm ∈ List.insertionSort (fun a b => a.start ≤ b.start)
        (questionsMetaRaw (flatten blocks)) := hqm
    exact (List.mem_insertionSort _).mp h1
  rcases List.mem_filterMap.mp hqm2 with ⟨e, he, hfe⟩
  cases hqs : qStartNum e.text with
  | none => rw [hqs] at hfe; simp at hfe
  | some n =>
    rw [hqs] at hfe
    simp only [Option.map_some', Option.some.injEq] at hfe
    refine ⟨e, he, ?_⟩
    rw [hqs, hnum, ← hfe]

/-- Witness for the amended C2 at the scenario-1 input. -/
theorem c2_amended_witness :
    ∃ e, e ∈ flatten s1Blocks ∧
      qStartNum e.text = some s1Q.question_number :=
  c2_amended_number_from_label pid0 s1Blocks s1Q (by decide)

/--
C5 (amended).  When the span yields no marker-based options, the inline
fallback is applied to the *pre-marker* stem text — the concatenation of
the span's fragments strictly before the first marker-only fragment (which
equals the full span text exactly when the span has no marker-only
fragments) — and whenever the fallback input's inline `(d)` matches do not
cover all four digits 1–4 (in particular, more than 0 but fewer than 4
distinct digits), no options are assigned and that text, markers included,
becomes the stem.
-/
theorem c5_amended_fallback_on_premarker_text :
    (∀ (flat : List Entry) (marks : List Marker) (startIdx endIdx : Nat),
      markerOptionsOf (rangeBlocksOf flat startIdx endIdx)
          (localMarkersOf marks startIdx endIdx) endIdx = [] →
      stemAndOptions flat marks startIdx endIdx =
        tryInline (stemTextOf flat marks startIdx endIdx)) ∧
    (∀ t : Str, inlineDigitsOk (inlineMatches t) = false →
      tryInline t = (t, [])) := by
  constructor
  · intro flat marks sIdx eIdx h
    unfold stemAndOptions
    rw [if_pos h]
  · intro t h
    unfold tryInline
    rw [if_neg (by simp [h])]

/-- Witness for the amended C5: the single span of `cexC5` (start index 0,
end index 4) routes through the fallback on its pre-marker text, and the
fallback on a text with only inline digits 1 and 2 assigns no options. -/
theorem c5_amended_witness :
    stemAndOptions (flatten cexC5) (markersOf (flatten cexC5)) 0 4 =
      tryInline (stemTextOf (flatten cexC5) (markersOf (flatten cexC5)) 0 4) ∧
    tryInline ("intro (1) a (2) b".toList) =
      ("intro (1) a (2) b".toList, []) :=
  ⟨c5_amended_fallback_on_premarker_text.1 _ _ 0 4 (by decide),
    c5_amended_fallback_on_premarker_text.2 _ (by decide)⟩

theorem dictInsert_fresh (k : Nat) (v : Str) :
    ∀ d : AnswerDict, (∀ p ∈ d, p.1 ≠ k) → dictInsert k v d = d ++ [(k, v)] := by
  intro d
  induction d with
  | nil => intro _; rfl
  | cons p rest ih =>
    intro h
    cases p with
    | mk k' v' =>
      simp only [dictInsert]
      rw [if_neg (h (k', v') (List.mem_cons_self ..))]
      rw [ih fun p hp => h p (List.mem_cons_of_mem _ hp)]
      simp

theorem seqDict_eq :
    ∀ (ms : List Str) (i : Nat) (d : AnswerDict),
      (∀ p ∈ d, p.1 < i) →
      seqDict i ms d =
        d ++ (List.enumFrom i ms).map (fun p => (p.1, strip p.2)) := by
  intro ms
  induction ms with
  | nil => intro i d _; simp [seqDict]
  | cons a rest ih =>
    intro i d h
    simp only [seqDict]
    rw [dictInsert_fresh i (strip a) d (fun p hp => Nat.ne_of_lt (h p hp))]
    rw [ih (i + 1) (d ++ [(i, strip a)]) ?fresh]
    · simp [List.enumFrom]
    case fresh =>
      intro p hp
      rcases List.mem_append.mp hp with h1 | h1
      · exact Nat.lt_succ_of_lt (h p h1)
      · simp only [List.mem_singleton] at h1
        rw [h1]
        exact Nat.lt_succ_self i

/--
C8.  The extractor returns the empty map on empty input text; the sequence
fallback returns the empty map whenever the text has fewer than 10
parenthesized-number matches, and with `n ≥ 10` matches it returns exactly
the map `{1 ↦ m₁, …, n ↦ mₙ}` assigning the matched digit strings to
1, 2, 3, … in reading order.
-/
theorem c8_empty_and_sequence_threshold :
    extractText [] = [] ∧
    (∀ t : Str, (parenMatches t).length < 10 → trySequence t = []) ∧
    (∀ t : Str, 10 ≤ (parenMatches t).length →
      trySequence t =
        (List.enumFrom 1 (parenMatches t)).map (fun p => (p.1, strip p.2))) := by
  refine ⟨rfl, ?_, ?_⟩
  · intro t h
    unfold trySequence
    rw [if_pos h]
  · intro t h
    unfold trySequence
    rw [if_neg (by omega)]
    exact seqDict_eq (parenMatches t) 1 [] (by simp)

def seqT : Str := "(2) (3) (1) (2) (4) (1) (3) (2) (4) (1) (2)".toList

/-- Witness for C8: a 2-match text yields the empty map, and the spec's
11-match scenario-5 text yields the fully enumerated map. -/
theorem c8_witness :
    trySequence ("(1) (2)".toList) = [] ∧
    trySequence seqT =
      (List.enumFrom 1 (parenMatches seqT)).map (fun p => (p.1, strip p.2)) :=
  ⟨c8_empty_and_sequence_threshold.2.1 _ (by decide),
    c8_empty_and_sequence_threshold.2.2 seqT (by decide)⟩

theorem dictLookup_insert (k k' : Nat) (v : Str) :
    ∀ d : AnswerDict,
      dictLookup k (dictInsert k' v d) =
        if k' = k then some v else dictLookup k d := by
  intro d
  induction d with
  | nil => simp [dictInsert, dictLookup]
  | cons p rest ih =>
    cases p with
    | mk a b =>
      simp only [dictInsert]
      by_cases hak : a = k'
      · rw [if_pos hak]
        simp only [dictLookup]
        by_cases hk : k' = k
        · rw [if_pos hk, if_pos hk]
        · rw [if_neg hk, if_neg hk, if_neg (by rw [hak]; exact hk)]
      · rw [if_neg hak]
        simp only [dictLookup]
        by_cases hik : a = k
        · rw [if_pos hik, if_pos hik,
            if_neg (by intro h; exact hak (h.trans hik.symm).symm)]
        · rw [if_neg hik, if_neg hik, ih]

theorem dict_foldl_lookup (k : Nat) (d : AnswerDict) :
    ∀ ms : List (Nat × Str),
      dictLookup k
          (List.foldl (fun d m => dictInsert m.1 (strip m.2) d) d ms) =
        match ((ms.filter (fun x => x.1 = k)).map
            (fun x => strip x.2)).getLast? with
        | some v => some v
        | none => dictLookup k d := by
  intro ms
  induction ms using List.reverseRecOn with
  | nil => simp
  | append_singleton ms m ih =>
    rw [List.foldl_append, List.foldl_cons, List.foldl_nil,
      dictLookup_insert]
    by_cases hk : m.1 = k
    · rw [if_pos hk]
      have hfc : (ms ++ [m]).filter (fun x => x.1 = k) =
          ms.filter (fun x => x.1 = k) ++ [m] := by
        simp [List.filter_append, hk]
      rw [hfc, List.map_append]
      simp
    · rw [if_neg hk]
      have hfc : (ms ++ [m]).filter (fun x => x.1 = k) =
          ms.filter (fun x => x.1 = k) := by
        simp [List.filter_append, hk]
      rw [hfc, ih]

theorem tryQPattern_lookup (t : Str) (k : Nat) :
    dictLookup k (tryQPattern t) =
      (((qMatches t).filter (fun x => x.1 = k)).map
        (fun x => strip x.2)).getLast? := by
  unfold tryQPattern
  rw [dict_foldl_lookup]
  cases h : (((qMatches t).filter (fun x => x.1 = k)).map
      (fun x => strip x.2)).getLast? with
  | none => simp [dictLookup]
  | some v => simp

theorem strip_eq_nil_all_space {t : Str} (h : strip t = []) :
    ∀ c ∈ t, pySpace c := by
  unfold strip at h
  rw [List.reverse_eq_nil_iff] at h
  have h2 : ∀ c ∈ (List.dropWhile pySpace t).reverse, pySpace c := by
    rw [List.dropWhile_eq_nil_iff] at h
    exact h
  intro c hc
  have ht : c ∈ List.takeWhile pySpace t ++ List.dropWhile pySpace t := by
    rw [List.takeWhile_append_dropWhile]
    exact hc
  rcases List.mem_append.mp ht with h3 | h3
  · exact List.mem_takeWhile_imp h3
  · exact h2 c (List.mem_reverse.mpr h3)

theorem qPatAt_space_none {c : Char} {cs : Str} (h : pySpace c = true) :
    qPatAt (c :: cs) = none := by
  have h1 : c ≠ 'Q' := by rintro rfl; exact absurd h (by decide)
  have h2 : c ≠ 'q' := by rintro rfl; exact absurd h (by decide)
  unfold qPatAt
  simp [h1, h2]

theorem qFindF_all_space :
    ∀ (f : Nat) (t : Str), (∀ c ∈ t, pySpace c) → qFindF f t = [] := by
  intro f
  induction f with
  | zero => intro t _; rfl
  | succ f ih =>
    intro t h
    cases t with
    | nil => rfl
    | cons c cs =>
      simp only [qFindF, qPatAt_space_none (h c (List.mem_cons_self ..))]
      exact ih cs fun c' hc' => h c' (List.mem_cons_of_mem _ hc')

theorem dictInsert_ne_nil (k : Nat) (v : Str) (d : AnswerDict) :
    dictInsert k v d ≠ [] := by
  cases d with
  | nil => simp [dictInsert]
  | cons p rest =>
    cases p
    simp only [dictInsert]
    split <;> simp

theorem dict_foldl_ne_nil :
    ∀ (ms : List (Nat × Str)) (d : AnswerDict), d ≠ [] →
      List.foldl (fun d m => dictInsert m.1 (strip m.2) d) d ms ≠ [] := by
  intro ms
  induction ms with
  | nil => exact fun d h => h
  | cons m rest ih =>
    intro d _
    simp only [List.foldl_cons]
    exact ih _ (dictInsert_ne_nil _ _ _)

theorem tryQPattern_ne_nil {t : Str} (h : qMatches t ≠ []) :
    tryQPattern t ≠ [] := by
  unfold tryQPattern
  cases hm : qMatches t with
  | nil => exact absurd hm h
  | cons m rest =>
    simp only [List.foldl_cons]
    exact dict_foldl_ne_nil rest _ (dictInsert_ne_nil _ _ _)

/--
C9.  Whenever the Q-number pattern has at least one match in the combined
text, `extract_from_text_blocks` returns the map built from those Q-number
matches alone — the bare-number and sequence strategies are never consulted
(the result is `tryQPattern`, which does not mention them) — and a lookup
returns the *last* match for each question number (later duplicates
overwrite earlier ones).
-/
theorem c9_q_pattern_priority_last_wins :
    ∀ bs : List KBlock, qMatches (combineTextBlocks bs) ≠ [] →
      extract_from_text_blocks bs = tryQPattern (combineTextBlocks bs) ∧
      ∀ k : Nat, dictLookup k (tryQPattern (combineTextBlocks bs)) =
        (((qMatches (combineTextBlocks bs)).filter (fun x => x.1 = k)).map
          (fun x => strip x.2)).getLast? := by
  intro bs h
  refine ⟨?_, fun k => tryQPattern_lookup _ k⟩
  unfold extract_from_text_blocks extractText
  have hstrip : ¬ strip (combineTextBlocks bs) = [] := by
    intro hs
    exact h (qFindF_all_space _ _ (strip_eq_nil_all_space hs))
  rw [if_neg hstrip, if_pos (tryQPattern_ne_nil h)]

def kb0 : List KBlock := [⟨some ("Q1. (2) Q2. (3) Q1. (4)".toList)⟩]

/-- Witness for C9 on a text whose `Q1` appears twice: the last `Q1` match
(answer 4) wins. -/
theorem c9_witness :
    extract_from_text_blocks kb0 = tryQPattern (combineTextBlocks kb0) ∧
    dictLookup 1 (extract_from_text_blocks kb0) = some ("4".toList) := by
  have h := c9_q_pattern_priority_last_wins kb0 (by decide)
  exact ⟨h.1, by decide⟩

end JeeQG
